import Mathlib

set_option maxHeartbeats 1000000

/-!
Verification of the thread-based process simulation repository.

The development shallowly embeds the two components of the program:

* `DiningPhilosophers` — the dining-philosophers simulation
  (`DiningPhilosophers.h` / `DiningPhilosophers.cpp`): the fork-assignment
  arithmetic, the ordered fork acquisition of `pickupForks`, an interleaving
  transition system over the five fork mutexes, the per-worker event traces of
  `philosopherWorker`, and the timestamped logging of `log`/`getTimestamp`.

* `ProcessSimulator` — the file-driven process simulation
  (`ProcessSimulator.cpp`, `main.cpp`): the line-by-line parsing and
  validation of `loadProcesses`, the thread fan-out of `executeProcesses`,
  and the exit-code behaviour of `main`.
-/

namespace DiningPhilosophers

/-- `NUM_PHILOSOPHERS = 5` from `DiningPhilosophers.h`. -/
def NUM_PHILOSOPHERS : Nat := 5

/-- `leftFork(id) = id` (`DiningPhilosophers.cpp`, `leftFork`). -/
def leftFork (id : Nat) : Nat := id

/-- `rightFork(id) = (id + 1) % NUM_PHILOSOPHERS` (`DiningPhilosophers.cpp`,
    `rightFork`), parametrised by the table size `N`; the reference
    implementation fixes `N = NUM_PHILOSOPHERS = 5`. -/
def rightFork (N id : Nat) : Nat := (id + 1) % N

/-- `int firstFork = (left < right) ? left : right;` (`pickupForks`). -/
def firstFork (N id : Nat) : Nat :=
  if leftFork id < rightFork N id then leftFork id else rightFork N id

/-- `int secondFork = (left < right) ? right : left;` (`pickupForks`). -/
def secondFork (N id : Nat) : Nat :=
  if leftFork id < rightFork N id then rightFork N id else leftFork id

theorem rightFork_lt (N id : Nat) (h : id < N) : rightFork N id < N :=
  Nat.mod_lt _ (by omega)

theorem leftFork_ne_rightFork (N id : Nat) (hN : 2 ≤ N) (h : id < N) :
    leftFork id ≠ rightFork N id := by
  simp only [leftFork, rightFork]
  rcases Nat.lt_or_ge (id + 1) N with h1 | h1
  · rw [Nat.mod_eq_of_lt h1]; omega
  · have hid : id + 1 = N := by omega
    rw [hid, Nat.mod_self]; omega

theorem firstFork_lt_secondFork (N id : Nat) (hN : 2 ≤ N) (h : id < N) :
    firstFork N id < secondFork N id := by
  have hne := leftFork_ne_rightFork N id hN h
  simp only [firstFork, secondFork]
  by_cases hlt : leftFork id < rightFork N id
  · simp [hlt]
  · simp only [if_neg hlt]
    omega

theorem firstFork_lt (N id : Nat) (h : id < N) : firstFork N id < N := by
  have hr := rightFork_lt N id h
  unfold firstFork
  split
  · exact h
  · exact hr

theorem secondFork_lt (N id : Nat) (h : id < N) : secondFork N id < N := by
  have hr := rightFork_lt N id h
  unfold secondFork
  split
  · exact hr
  · exact h

/-- The acquisition pair is exactly `{left, right}`, with the lower one first. -/
theorem firstFork_secondFork_cases (N id : Nat) :
    (firstFork N id = leftFork id ∧ secondFork N id = rightFork N id) ∨
    (firstFork N id = rightFork N id ∧ secondFork N id = leftFork id) := by
  simp only [firstFork, secondFork]
  by_cases hlt : leftFork id < rightFork N id <;> simp [hlt]

/-- C4: for every agent id below `N = 5`, the assigned left resource index is
    `id` and the assigned right resource index is `(id + 1) mod N`; in
    particular the assignment is the ring adjacency: the right fork is `id + 1`
    for agents `0..N-2` and wraps to `0` for agent `N-1`. -/
theorem fork_assignment (id : Nat) (hid : id < NUM_PHILOSOPHERS) :
    leftFork id = id ∧
    rightFork NUM_PHILOSOPHERS id = (id + 1) % NUM_PHILOSOPHERS ∧
    (id < NUM_PHILOSOPHERS - 1 → rightFork NUM_PHILOSOPHERS id = id + 1) ∧
    (id = NUM_PHILOSOPHERS - 1 → rightFork NUM_PHILOSOPHERS id = 0) := by
  refine ⟨rfl, rfl, ?_, ?_⟩ <;> intro h <;>
    simp only [rightFork, NUM_PHILOSOPHERS] at * <;> omega

/-- Witness for C4 at agent 4 (the wrap-around case). -/
theorem fork_assignment_witness :
    (4 : Nat) < NUM_PHILOSOPHERS ∧
    (leftFork 4 = 4 ∧
      rightFork NUM_PHILOSOPHERS 4 = (4 + 1) % NUM_PHILOSOPHERS ∧
      (4 < NUM_PHILOSOPHERS - 1 → rightFork NUM_PHILOSOPHERS 4 = 4 + 1) ∧
      (4 = NUM_PHILOSOPHERS - 1 → rightFork NUM_PHILOSOPHERS 4 = 0)) :=
  ⟨by decide, fork_assignment 4 (by decide)⟩

/-!
Interleaving semantics of `simulate`/`philosopherWorker`: one worker per
philosopher id below `N`, each running `iterations` think-eat cycles.  The
worker's control points with respect to the fork mutexes are:

* `ready`    — at the loop head / thinking; holds no forks;
* `hasFirst` — returned from `forks[firstFork].lock()`;
* `hasBoth`  — returned from `forks[secondFork].lock()`; eating;
* `putLeft`  — inside `putdownForks`, after `forks[left].unlock()`;
* `done`     — the worker's loop has finished.

A fork mutex is modelled by its holder: `none` when free, `some id` when
locked by philosopher `id`.
-/

inductive Phase where
  | ready
  | hasFirst
  | hasBoth
  | putLeft
  | done
  deriving DecidableEq, Repr

/-- A global configuration: each philosopher's control point and loop
    counter, and each fork mutex's holder. -/
structure Config where
  phase : Nat → Phase
  cycle : Nat → Nat
  holder : Nat → Option Nat

/-- The initial configuration: every worker at its loop head with counter 0,
    every fork mutex free. -/
def initConfig : Config :=
  { phase := fun _ => .ready, cycle := fun _ => 0, holder := fun _ => none }

/-- One interleaving step of the simulation with `N` philosophers and
    `iters` iterations per worker.  Locking a fork requires it to be free
    (`std::mutex::lock` blocks otherwise); unlocking never blocks.
    `putdownForks` unlocks `forks[left]` first, then `forks[right]`, and the
    loop counter advances when the cycle's body completes. -/
inductive Step (N iters : Nat) : Config → Config → Prop where
  | acquireFirst (id : Nat) (c : Config) (hid : id < N)
      (hp : c.phase id = .ready) (hc : c.cycle id < iters)
      (hfree : c.holder (firstFork N id) = none) :
      Step N iters c
        { phase := Function.update c.phase id .hasFirst,
          cycle := c.cycle,
          holder := Function.update c.holder (firstFork N id) (some id) }
  | acquireSecond (id : Nat) (c : Config) (hid : id < N)
      (hp : c.phase id = .hasFirst)
      (hfree : c.holder (secondFork N id) = none) :
      Step N iters c
        { phase := Function.update c.phase id .hasBoth,
          cycle := c.cycle,
          holder := Function.update c.holder (secondFork N id) (some id) }
  | releaseLeft (id : Nat) (c : Config) (hid : id < N)
      (hp : c.phase id = .hasBoth) :
      Step N iters c
        { phase := Function.update c.phase id .putLeft,
          cycle := c.cycle,
          holder := Function.update c.holder (leftFork id) none }
  | releaseRight (id : Nat) (c : Config) (hid : id < N)
      (hp : c.phase id = .putLeft) :
      Step N iters c
        { phase := Function.update c.phase id .ready,
          cycle := Function.update c.cycle id (c.cycle id + 1),
          holder := Function.update c.holder (rightFork N id) none }
  | finish (id : Nat) (c : Config) (hid : id < N)
      (hp : c.phase id = .ready) (hc : ¬ c.cycle id < iters) :
      Step N iters c
        { phase := Function.update c.phase id .done,
          cycle := c.cycle,
          holder := c.holder }

/-- Configurations reachable from the initial one by interleaving steps. -/
def Reachable (N iters : Nat) (c : Config) : Prop :=
  Relation.ReflTransGen (Step N iters) initConfig c

/-- The forks a philosopher holds at each control point. -/
def heldForks (N id : Nat) : Phase → List Nat
  | .ready => []
  | .hasFirst => [firstFork N id]
  | .hasBoth => [firstFork N id, secondFork N id]
  | .putLeft => [rightFork N id]
  | .done => []

/-- The consistency invariant tying the mutex holders to the workers'
    control points. -/
def Inv (N : Nat) (c : Config) : Prop :=
  (∀ f a, c.holder f = some a → a < N ∧ f ∈ heldForks N a (c.phase a)) ∧
  (∀ a, a < N → ∀ f ∈ heldForks N a (c.phase a), c.holder f = some a) ∧
  (∀ a, ¬ a < N → c.phase a = .ready)

theorem inv_init (N : Nat) : Inv N initConfig := by
  refine ⟨fun f a h => by simp [initConfig] at h, fun a _ f hf => ?_, fun a _ => rfl⟩
  simp [initConfig, heldForks] at hf

theorem leftFork_mem_hasBoth (N id : Nat) :
    leftFork id ∈ heldForks N id .hasBoth := by
  rcases firstFork_secondFork_cases N id with ⟨h1, h2⟩ | ⟨h1, h2⟩ <;>
    simp [heldForks, h1, h2]

theorem rightFork_mem_hasBoth (N id : Nat) :
    rightFork N id ∈ heldForks N id .hasBoth := by
  rcases firstFork_secondFork_cases N id with ⟨h1, h2⟩ | ⟨h1, h2⟩ <;>
    simp [heldForks, h1, h2]

theorem mem_hasBoth_elim (N id f : Nat) (h : f ∈ heldForks N id .hasBoth) :
    f = leftFork id ∨ f = rightFork N id := by
  rcases firstFork_secondFork_cases N id with ⟨h1, h2⟩ | ⟨h1, h2⟩ <;>
    simp [heldForks, h1, h2] at h <;> tauto

theorem update_holder_elim {g : Nat → Option Nat} {k f a : Nat} {v : Option Nat}
    (h : Function.update g k v f = some a) :
    (f = k ∧ v = some a) ∨ (¬ f = k ∧ g f = some a) := by
  rw [Function.update_apply] at h
  by_cases hfe : f = k
  · rw [if_pos hfe] at h; exact Or.inl ⟨hfe, h⟩
  · rw [if_neg hfe] at h; exact Or.inr ⟨hfe, h⟩

theorem inv_step (N iters : Nat) (hN : 2 ≤ N) {c c' : Config}
    (hinv : Inv N c) (hs : Step N iters c c') : Inv N c' := by
  obtain ⟨h1, h2, h3⟩ := hinv
  cases hs with
  | acquireFirst id cc hid hp hc hfree =>
      refine ⟨?_, ?_, ?_⟩
      · intro f a hf
        dsimp only at hf ⊢
        rcases update_holder_elim hf with ⟨hfe, hv⟩ | ⟨hfe, hv⟩
        · have hia : id = a := by injection hv
          refine ⟨lt_of_eq_of_lt hia.symm hid, ?_⟩
          rw [Function.update_apply, if_pos hia.symm, hfe, hia]
          simp [heldForks]
        · obtain ⟨haN, hmem⟩ := h1 f a hv
          refine ⟨haN, ?_⟩
          rw [Function.update_apply]
          by_cases hae : a = id
          · rw [hae, hp] at hmem
            simp [heldForks] at hmem
          · rw [if_neg hae]
            exact hmem
      · intro a haN f hf
        dsimp only at hf ⊢
        rw [Function.update_apply] at hf
        by_cases hae : a = id
        · rw [if_pos hae] at hf
          simp only [heldForks, List.mem_singleton] at hf
          rw [hf, hae, Function.update_same]
        · rw [if_neg hae] at hf
          have hfa := h2 a haN f hf
          rw [Function.update_apply]
          by_cases hfe : f = firstFork N id
          · rw [hfe, hfree] at hfa
            cases hfa
          · rw [if_neg hfe]
            exact hfa
      · intro a haN
        dsimp only
        rw [Function.update_apply, if_neg (fun h => haN (lt_of_eq_of_lt h hid))]
        exact h3 a haN
  | acquireSecond id cc hid hp hfree =>
      refine ⟨?_, ?_, ?_⟩
      · intro f a hf
        dsimp only at hf ⊢
        rcases update_holder_elim hf with ⟨hfe, hv⟩ | ⟨hfe, hv⟩
        · have hia : id = a := by injection hv
          refine ⟨lt_of_eq_of_lt hia.symm hid, ?_⟩
          rw [Function.update_apply, if_pos hia.symm, hfe, hia]
          simp [heldForks]
        · obtain ⟨haN, hmem⟩ := h1 f a hv
          refine ⟨haN, ?_⟩
          rw [Function.update_apply]
          by_cases hae : a = id
          · rw [if_pos hae]
            rw [hae, hp] at hmem
            simp only [heldForks, List.mem_singleton] at hmem
            rw [hmem, hae]
            simp [heldForks]
          · rw [if_neg hae]
            exact hmem
      · intro a haN f hf
        dsimp only at hf ⊢
        rw [Function.update_apply] at hf
        by_cases hae : a = id
        · rw [if_pos hae] at hf
          simp only [heldForks, List.mem_cons, List.mem_singleton,
            List.not_mem_nil, or_false] at hf
          rcases hf with hf | hf
          · have hne : ¬ f = secondFork N id := by
              rw [hf, hae]
              exact Nat.ne_of_lt (firstFork_lt_secondFork N id hN hid)
            rw [Function.update_apply, if_neg hne]
            have hm : firstFork N id ∈ heldForks N id (c.phase id) := by
              rw [hp]; simp [heldForks]
            have hh := h2 id hid _ hm
            rw [hf, hae]
            exact hh
          · rw [hf, hae, Function.update_same]
        · rw [if_neg hae] at hf
          have hfa := h2 a haN f hf
          rw [Function.update_apply]
          by_cases hfe : f = secondFork N id
          · rw [hfe, hfree] at hfa
            cases hfa
          · rw [if_neg hfe]
            exact hfa
      · intro a haN
        dsimp only
        rw [Function.update_apply, if_neg (fun h => haN (lt_of_eq_of_lt h hid))]
        exact h3 a haN
  | releaseLeft id cc hid hp =>
      refine ⟨?_, ?_, ?_⟩
      · intro f a hf
        dsimp only at hf ⊢
        rcases update_holder_elim hf with ⟨hfe, hv⟩ | ⟨hfe, hv⟩
        · cases hv
        · obtain ⟨haN, hmem⟩ := h1 f a hv
          refine ⟨haN, ?_⟩
          rw [Function.update_apply]
          by_cases hae : a = id
          · rw [if_pos hae]
            rw [hae, hp] at hmem
            rcases mem_hasBoth_elim N id f hmem with h | h
            · exact absurd h hfe
            · rw [h, hae]
              simp [heldForks]
          · rw [if_neg hae]
            exact hmem
      · intro a haN f hf
        dsimp only at hf ⊢
        rw [Function.update_apply] at hf
        by_cases hae : a = id
        · rw [if_pos hae] at hf
          simp only [heldForks, List.mem_singleton] at hf
          have hne : ¬ f = leftFork id := by
            rw [hf, hae]
            exact fun h => leftFork_ne_rightFork N id hN hid h.symm
          rw [Function.update_apply, if_neg hne]
          have hm : rightFork N id ∈ heldForks N id (c.phase id) := by
            rw [hp]; exact rightFork_mem_hasBoth N id
          have hh := h2 id hid _ hm
          rw [hf, hae]
          exact hh
        · rw [if_neg hae] at hf
          have hfa := h2 a haN f hf
          rw [Function.update_apply]
          by_cases hfe : f = leftFork id
          · have hm : leftFork id ∈ heldForks N id (c.phase id) := by
              rw [hp]; exact leftFork_mem_hasBoth N id
            have hidh := h2 id hid _ hm
            rw [hfe, hidh] at hfa
            injection hfa with hfa
            exact absurd hfa.symm hae
          · rw [if_neg hfe]
            exact hfa
      · intro a haN
        dsimp only
        rw [Function.update_apply, if_neg (fun h => haN (lt_of_eq_of_lt h hid))]
        exact h3 a haN
  | releaseRight id cc hid hp =>
      refine ⟨?_, ?_, ?_⟩
      · intro f a hf
        dsimp only at hf ⊢
        rcases update_holder_elim hf with ⟨hfe, hv⟩ | ⟨hfe, hv⟩
        · cases hv
        · obtain ⟨haN, hmem⟩ := h1 f a hv
          refine ⟨haN, ?_⟩
          rw [Function.update_apply]
          by_cases hae : a = id
          · rw [hae, hp] at hmem
            simp only [heldForks, List.mem_singleton] at hmem
            exact absurd hmem hfe
          · rw [if_neg hae]
            exact hmem
      · intro a haN f hf
        dsimp only at hf ⊢
        rw [Function.update_apply] at hf
        by_cases hae : a = id
        · rw [if_pos hae] at hf
          simp [heldForks] at hf
        · rw [if_neg hae] at hf
          have hfa := h2 a haN f hf
          rw [Function.update_apply]
          by_cases hfe : f = rightFork N id
          · have hm : rightFork N id ∈ heldForks N id (c.phase id) := by
              rw [hp]; simp [heldForks]
            have hidh := h2 id hid _ hm
            rw [hfe, hidh] at hfa
            injection hfa with hfa
            exact absurd hfa.symm hae
          · rw [if_neg hfe]
            exact hfa
      · intro a haN
        dsimp only
        rw [Function.update_apply, if_neg (fun h => haN (lt_of_eq_of_lt h hid))]
        exact h3 a haN
  | finish id cc hid hp hc =>
      refine ⟨?_, ?_, ?_⟩
      · intro f a hf
        dsimp only at hf ⊢
        obtain ⟨haN, hmem⟩ := h1 f a hf
        refine ⟨haN, ?_⟩
        rw [Function.update_apply]
        by_cases hae : a = id
        · rw [hae, hp] at hmem
          simp [heldForks] at hmem
        · rw [if_neg hae]
          exact hmem
      · intro a haN f hf
        dsimp only at hf ⊢
        rw [Function.update_apply] at hf
        by_cases hae : a = id
        · rw [if_pos hae] at hf
          simp [heldForks] at hf
        · rw [if_neg hae] at hf
          exact h2 a haN f hf
      · intro a haN
        dsimp only
        rw [Function.update_apply, if_neg (fun h => haN (lt_of_eq_of_lt h hid))]
        exact h3 a haN

theorem inv_reachable (N iters : Nat) (hN : 2 ≤ N) {c : Config}
    (hr : Reachable N iters c) : Inv N c := by
  induction hr with
  | refl => exact inv_init N
  | tail _ hstep ih => exact inv_step N iters hN ih hstep

/-- C3: at any instant of any execution, each fork is held by at most one
    philosopher, and the sets of forks simultaneously held by two distinct
    concurrently running philosophers are disjoint. -/
theorem mutual_exclusion (N iters : Nat) (hN : 2 ≤ N) (c : Config)
    (hr : Reachable N iters c) :
    (∀ f a b, c.holder f = some a → c.holder f = some b → a = b) ∧
    (∀ a b, a < N → b < N → a ≠ b → ∀ f,
      f ∈ heldForks N a (c.phase a) → f ∉ heldForks N b (c.phase b)) := by
  obtain ⟨h1, h2, h3⟩ := inv_reachable N iters hN hr
  refine ⟨fun f a b hfa hfb => by rw [hfa] at hfb; injection hfb, ?_⟩
  intro a b haN hbN hab f hfa hfb
  have ha := h2 a haN f hfa
  have hb := h2 b hbN f hfb
  rw [ha] at hb
  injection hb with hb
  exact hab hb

/-- The configuration after philosopher 0's first fork acquisition. -/
def cfg1 : Config :=
  { phase := Function.update initConfig.phase 0 .hasFirst,
    cycle := initConfig.cycle,
    holder := Function.update initConfig.holder (firstFork 5 0) (some 0) }

theorem cfg1_reachable : Reachable 5 3 cfg1 :=
  Relation.ReflTransGen.single
    (Step.acquireFirst 0 initConfig (by decide) rfl (by decide) rfl)

/-- Witness for C3: in the reachable configuration where philosopher 0 holds
    fork 0, fork 0 is not among philosopher 1's held forks. -/
theorem mutual_exclusion_witness :
    (2 ≤ 5) ∧ 0 ∈ heldForks 5 0 (cfg1.phase 0) ∧
      0 ∉ heldForks 5 1 (cfg1.phase 1) :=
  ⟨by decide, by decide,
    (mutual_exclusion 5 3 (by decide) cfg1 cfg1_reachable).2 0 1 (by decide)
      (by decide) (by decide) 0 (by decide)⟩

/-- Philosopher `a` is blocked waiting for fork `r`: its next fork operation
    is a `lock` of `r` and `r` is currently held. -/
def WaitsFor (N iters : Nat) (c : Config) (a r : Nat) : Prop :=
  a < N ∧ c.holder r ≠ none ∧
  ((c.phase a = .ready ∧ c.cycle a < iters ∧ r = firstFork N a) ∨
   (c.phase a = .hasFirst ∧ r = secondFork N a))

/-- Edge of the wait-for graph, contracted to agents: `a` is blocked on a
    fork currently held by `b`. -/
def WaitPrec (N iters : Nat) (c : Config) (a b : Nat) : Prop :=
  ∃ r, WaitsFor N iters c a r ∧ c.holder r = some b

theorem waitsFor_unique {N iters : Nat} {c : Config} {a r r' : Nat}
    (h : WaitsFor N iters c a r) (h' : WaitsFor N iters c a r') : r = r' := by
  obtain ⟨_, _, hc⟩ := h
  obtain ⟨_, _, hc'⟩ := h'
  rcases hc with ⟨hp, _, hr⟩ | ⟨hp, hr⟩ <;>
    rcases hc' with ⟨hp', _, hr'⟩ | ⟨hp', hr'⟩
  · rw [hr, hr']
  · rw [hp] at hp'; cases hp'
  · rw [hp] at hp'; cases hp'
  · rw [hr, hr']

theorem waitsFor_target_lt (N iters : Nat) {c : Config} {a r : Nat}
    (h : WaitsFor N iters c a r) : r < N := by
  obtain ⟨haN, _, hc⟩ := h
  rcases hc with ⟨_, _, hr⟩ | ⟨_, hr⟩
  · rw [hr]; exact firstFork_lt N a haN
  · rw [hr]; exact secondFork_lt N a haN

/-- Ordering discipline: any fork a blocked philosopher already holds is
    strictly below the fork it is waiting for. -/
theorem held_lt_wait (N iters : Nat) (hN : 2 ≤ N) {c : Config} {a r f : Nat}
    (hw : WaitsFor N iters c a r)
    (hf : f ∈ heldForks N a (c.phase a)) : f < r := by
  obtain ⟨haN, _, hc⟩ := hw
  rcases hc with ⟨hp, _, hr⟩ | ⟨hp, hr⟩
  · rw [hp] at hf; simp [heldForks] at hf
  · rw [hp] at hf
    simp only [heldForks, List.mem_singleton] at hf
    rw [hf, hr]
    exact firstFork_lt_secondFork N a hN haN

theorem waitPrec_target_lt (N iters : Nat) (hN : 2 ≤ N) {c : Config}
    (hinv : Inv N c) {a b ra rb : Nat} (hab : WaitPrec N iters c a b)
    (hwa : WaitsFor N iters c a ra) (hwb : WaitsFor N iters c b rb) :
    ra < rb := by
  obtain ⟨r, hw, hhold⟩ := hab
  have hr : r = ra := waitsFor_unique hw hwa
  rw [hr] at hhold
  have hmem : ra ∈ heldForks N b (c.phase b) := (hinv.1 ra b hhold).2
  exact held_lt_wait N iters hN hwb hmem

theorem transGen_target_lt (N iters : Nat) (hN : 2 ≤ N) {c : Config}
    (hinv : Inv N c) {a b : Nat}
    (h : Relation.TransGen (WaitPrec N iters c) a b) :
    ∀ ra rb, WaitsFor N iters c a ra → WaitsFor N iters c b rb → ra < rb := by
  induction h with
  | single hab =>
      intro ra rb hwa hwb
      exact waitPrec_target_lt N iters hN hinv hab hwa hwb
  | tail hpre hlast ih =>
      intro ra rc hwa hwc
      obtain ⟨rb, hwb, hhold⟩ := id hlast
      exact lt_trans (ih ra rb hwa hwb)
        (waitPrec_target_lt N iters hN hinv hlast hwb hwc)

theorem transGen_waits (N iters : Nat) {c : Config} {a b : Nat}
    (h : Relation.TransGen (WaitPrec N iters c) a b) :
    ∃ ra, WaitsFor N iters c a ra := by
  induction h with
  | single hab =>
      obtain ⟨r, hw, _⟩ := hab
      exact ⟨r, hw⟩
  | tail hpre hlast ih => exact ih

theorem no_wait_cycle (N iters : Nat) (hN : 2 ≤ N) {c : Config}
    (hinv : Inv N c) (a : Nat) :
    ¬ Relation.TransGen (WaitPrec N iters c) a a := by
  intro h
  obtain ⟨ra, hwa⟩ := transGen_waits N iters h
  exact lt_irrefl ra (transGen_target_lt N iters hN hinv h ra ra hwa hwa)

/-- If no step is enabled at all, a blocked philosopher's wait target can be
    strictly increased without bound below `N` — impossible. -/
theorem blocked_succ (N iters : Nat) (hN : 2 ≤ N) {c : Config}
    (hinv : Inv N c) (hno : ∀ c', ¬ Step N iters c c')
    {a r : Nat} (hw : WaitsFor N iters c a r) :
    ∃ b rb, WaitsFor N iters c b rb ∧ r < rb := by
  obtain ⟨haN, hheld, _⟩ := hw
  cases hhold : c.holder r with
  | none => exact absurd hhold hheld
  | some b =>
      obtain ⟨hbN, hmem⟩ := hinv.1 r b hhold
      cases hpb : c.phase b with
      | ready => rw [hpb] at hmem; simp [heldForks] at hmem
      | done => rw [hpb] at hmem; simp [heldForks] at hmem
      | hasBoth => exact absurd (Step.releaseLeft b c hbN hpb) (hno _)
      | putLeft => exact absurd (Step.releaseRight b c hbN hpb) (hno _)
      | hasFirst =>
          have hfree : c.holder (secondFork N b) ≠ none := fun hfree =>
            hno _ (Step.acquireSecond b c hbN hpb hfree)
          have hwb : WaitsFor N iters c b (secondFork N b) :=
            ⟨hbN, hfree, Or.inr ⟨hpb, rfl⟩⟩
          exact ⟨b, secondFork N b, hwb, held_lt_wait N iters hN hwb hmem⟩

theorem blocked_descent (N iters : Nat) (hN : 2 ≤ N) {c : Config}
    (hinv : Inv N c) (hno : ∀ c', ¬ Step N iters c c') :
    ∀ k a r, WaitsFor N iters c a r → N ≤ r + k → False := by
  intro k
  induction k with
  | zero =>
      intro a r hw hk
      have := waitsFor_target_lt N iters hw
      omega
  | succ k ih =>
      intro a r hw hk
      obtain ⟨b, rb, hwb, hlt⟩ := blocked_succ N iters hN hinv hno hw
      exact ih b rb hwb (by omega)

theorem progress (N iters : Nat) (hN : 2 ≤ N) {c : Config}
    (hinv : Inv N c) (hnd : ∃ a, a < N ∧ c.phase a ≠ .done) :
    ∃ c', Step N iters c c' := by
  by_contra hno
  push_neg at hno
  obtain ⟨a, haN, hnd⟩ := hnd
  cases hpa : c.phase a with
  | done => exact hnd hpa
  | hasBoth => exact hno _ (Step.releaseLeft a c haN hpa)
  | putLeft => exact hno _ (Step.releaseRight a c haN hpa)
  | ready =>
      by_cases hc : c.cycle a < iters
      · have hfree : c.holder (firstFork N a) ≠ none := fun hfree =>
          hno _ (Step.acquireFirst a c haN hpa hc hfree)
        exact False.elim (blocked_descent N iters hN hinv hno N a
          (firstFork N a) ⟨haN, hfree, Or.inl ⟨hpa, hc, rfl⟩⟩ (by omega))
      · exact hno _ (Step.finish a c haN hpa hc)
  | hasFirst =>
      have hfree : c.holder (secondFork N a) ≠ none := fun hfree =>
        hno _ (Step.acquireSecond a c haN hpa hfree)
      exact False.elim (blocked_descent N iters hN hinv hno N a
        (secondFork N a) ⟨haN, hfree, Or.inr ⟨hpa, rfl⟩⟩ (by omega))

/-- C2: for any `N ≥ 2` philosophers in the ring-adjacency pattern, under
    the ordered acquisition protocol the wait-for graph over resources is
    acyclic in every reachable configuration of every interleaving, and no
    reachable configuration with an unfinished worker is stuck: some step is
    always enabled, so a run never stalls indefinitely. -/
theorem no_deadlock (N iters : Nat) (hN : 2 ≤ N) (c : Config)
    (hr : Reachable N iters c) :
    (∀ a, ¬ Relation.TransGen (WaitPrec N iters c) a a) ∧
    ((∃ a, a < N ∧ c.phase a ≠ .done) → ∃ c', Step N iters c c') := by
  have hinv := inv_reachable N iters hN hr
  exact ⟨no_wait_cycle N iters hN hinv, progress N iters hN hinv⟩

/-- Witness for C2 at `N = 5`, `iters = 3`, in the initial configuration. -/
theorem no_deadlock_witness :
    (2 ≤ 5) ∧ (¬ Relation.TransGen (WaitPrec 5 3 initConfig) 0 0) ∧
      (∃ c', Step 5 3 initConfig c') :=
  ⟨by decide,
    (no_deadlock 5 3 (by decide) initConfig Relation.ReflTransGen.refl).1 0,
    (no_deadlock 5 3 (by decide) initConfig Relation.ReflTransGen.refl).2
      ⟨0, by decide, by decide⟩⟩

theorem second_lock_after_first (N iters : Nat) (hN : 2 ≤ N) {c c' : Config}
    (id : Nat) (hid : id < N) (hr : Reachable N iters c)
    (hs : Step N iters c c')
    (hafter : c'.holder (secondFork N id) = some id) :
    c.holder (secondFork N id) = some id ∨
    c.holder (firstFork N id) = some id := by
  have hinv := inv_reachable N iters hN hr
  cases hs with
  | acquireFirst id' cc hid' hp hc hfree =>
      dsimp only at hafter
      rcases update_holder_elim hafter with ⟨hfe, hv⟩ | ⟨hfe, hv⟩
      · have hii : id' = id := by injection hv
        rw [hii] at hfe
        exact absurd hfe.symm (Nat.ne_of_lt (firstFork_lt_secondFork N id hN hid))
      · exact Or.inl hv
  | acquireSecond id' cc hid' hp hfree =>
      dsimp only at hafter
      rcases update_holder_elim hafter with ⟨hfe, hv⟩ | ⟨hfe, hv⟩
      · have hii : id' = id := by injection hv
        right
        rw [← hii]
        exact hinv.2.1 id' hid' (firstFork N id') (by rw [hp]; simp [heldForks])
      · exact Or.inl hv
  | releaseLeft id' cc hid' hp =>
      dsimp only at hafter
      rcases update_holder_elim hafter with ⟨hfe, hv⟩ | ⟨hfe, hv⟩
      · cases hv
      · exact Or.inl hv
  | releaseRight id' cc hid' hp =>
      dsimp only at hafter
      rcases update_holder_elim hafter with ⟨hfe, hv⟩ | ⟨hfe, hv⟩
      · cases hv
      · exact Or.inl hv
  | finish id' cc hid' hp hc =>
      exact Or.inl hafter

/-- Whenever a step results in philosopher `id` holding its second fork, it
    either already held it, or it held its first fork when the step began:
    the lock of the second fork strictly follows the lock of the first in
    every cycle. -/
def LocksFirstBeforeSecond (id : Nat) : Prop :=
  ∀ iters (c c' : Config), Reachable NUM_PHILOSOPHERS iters c →
    Step NUM_PHILOSOPHERS iters c c' →
    c'.holder (secondFork NUM_PHILOSOPHERS id) = some id →
    c.holder (secondFork NUM_PHILOSOPHERS id) = some id ∨
    c.holder (firstFork NUM_PHILOSOPHERS id) = some id

/-- C1: for every philosopher id below `N = 5`, the acquisition pair of
    `pickupForks` is `first = min(left, right)`, `second = max(left, right)`,
    `first < second`, and fork `first` is locked strictly before fork
    `second` in every cycle of every execution. -/
theorem ordered_acquisition (id : Nat) (hid : id < NUM_PHILOSOPHERS) :
    firstFork NUM_PHILOSOPHERS id =
      min (leftFork id) (rightFork NUM_PHILOSOPHERS id) ∧
    secondFork NUM_PHILOSOPHERS id =
      max (leftFork id) (rightFork NUM_PHILOSOPHERS id) ∧
    firstFork NUM_PHILOSOPHERS id < secondFork NUM_PHILOSOPHERS id ∧
    LocksFirstBeforeSecond id := by
  have h5 : id < 5 := hid
  refine ⟨?_, ?_,
    firstFork_lt_secondFork NUM_PHILOSOPHERS id (by decide) hid, ?_⟩
  · interval_cases id <;> decide
  · interval_cases id <;> decide
  · intro iters c c' hr hs hafter
    exact second_lock_after_first NUM_PHILOSOPHERS iters (by decide) id hid
      hr hs hafter

/-- Witness for C1 at philosopher 1. -/
theorem ordered_acquisition_witness :
    (1 : Nat) < NUM_PHILOSOPHERS ∧
    (firstFork NUM_PHILOSOPHERS 1 =
        min (leftFork 1) (rightFork NUM_PHILOSOPHERS 1) ∧
      secondFork NUM_PHILOSOPHERS 1 =
        max (leftFork 1) (rightFork NUM_PHILOSOPHERS 1) ∧
      firstFork NUM_PHILOSOPHERS 1 < secondFork NUM_PHILOSOPHERS 1 ∧
      LocksFirstBeforeSecond 1) :=
  ⟨by decide, ordered_acquisition 1 (by decide)⟩

/-- The log events a philosopher worker emits, with their message payloads
    (`philosopherWorker`, `think`, `pickupForks`, `eat`, `putdownForks`). -/
inductive Event where
  | startCycle (id num total : Nat)
  | thinking (id : Nat)
  | waiting (id l r : Nat)
  | acquired (id f : Nat)
  | eating (id : Nat)
  | released (id l r : Nat)
  | completed (id total : Nat)
  deriving DecidableEq, Repr

/-- The events of the `i`-th loop iteration (0-based) of `philosopherWorker`:
    the "Starting cycle" log, `think`, `pickupForks` (its "Waiting" log and
    the two "Acquired" logs, in lower-then-higher order), `eat`, and
    `putdownForks`. -/
def cycleEvents (iters id i : Nat) : List Event :=
  [.startCycle id (i + 1) iters,
   .thinking id,
   .waiting id (leftFork id) (rightFork NUM_PHILOSOPHERS id),
   .acquired id (firstFork NUM_PHILOSOPHERS id),
   .acquired id (secondFork NUM_PHILOSOPHERS id),
   .eating id,
   .released id (leftFork id) (rightFork NUM_PHILOSOPHERS id)]

/-- All events one worker emits: `iters` loop iterations followed by the
    "Completed all ... iterations" log. -/
def workerEvents (iters id : Nat) : List Event :=
  ((List.range iters).map (cycleEvents iters id)).flatten ++ [.completed id iters]

/-- The events of a whole `simulate()` run (`NUM_PHILOSOPHERS` workers),
    as the concatenation of the per-worker traces; per-kind event counts are
    invariant under the actual interleaving. -/
def simulationEvents (iters : Nat) : List Event :=
  ((List.range NUM_PHILOSOPHERS).map (workerEvents iters)).flatten

def isStartCycle : Event → Bool
  | .startCycle _ _ _ => true
  | _ => false

def isThinking : Event → Bool
  | .thinking _ => true
  | _ => false

def isAcquired : Event → Bool
  | .acquired _ _ => true
  | _ => false

def isEating : Event → Bool
  | .eating _ => true
  | _ => false

def isReleased : Event → Bool
  | .released _ _ _ => true
  | _ => false

theorem countP_flatten_const {α : Type} (p : α → Bool) (f : Nat → List α)
    (n k : Nat) (h : ∀ i, (f i).countP p = k) :
    (((List.range n).map f).flatten).countP p = n * k := by
  induction n with
  | zero => simp
  | succ n ih =>
      rw [List.range_succ, List.map_append, List.flatten_append]
      simp only [List.countP_append, ih]
      simp [h, Nat.succ_mul]

theorem cycleEvents_countP (iters id i : Nat) :
    (cycleEvents iters id i).countP isStartCycle = 1 ∧
    (cycleEvents iters id i).countP isAcquired = 2 ∧
    (cycleEvents iters id i).countP isReleased = 1 := by
  refine ⟨rfl, rfl, rfl⟩

/-- C5: for `iterations = k`, each worker emits exactly `k` "start cycle"
    events and `k` matched acquire/release pairs (two "Acquired" events and
    one both-forks "Released" event per cycle) before its final "Completed"
    event; in the concrete run with 5 workers and `iterations = 1` the
    output contains exactly 5 "Thinking", 10 "Acquired", 5 "Eating" and 5
    "Released" events. -/
theorem completion_property (k id : Nat) :
    (workerEvents k id).countP isStartCycle = k ∧
    (workerEvents k id).countP isAcquired = 2 * k ∧
    (workerEvents k id).countP isReleased = k ∧
    (workerEvents k id).getLast? = some (.completed id k) ∧
    (simulationEvents 1).countP isThinking = 5 ∧
    (simulationEvents 1).countP isAcquired = 10 ∧
    (simulationEvents 1).countP isEating = 5 ∧
    (simulationEvents 1).countP isReleased = 5 := by
  refine ⟨?_, ?_, ?_, List.getLast?_concat _, by decide, by decide, by decide,
    by decide⟩
  · rw [workerEvents, List.countP_append,
      countP_flatten_const isStartCycle (cycleEvents k id) k 1
        (fun i => (cycleEvents_countP k id i).1)]
    have h0 : ([Event.completed id k] : List Event).countP isStartCycle = 0 := rfl
    rw [h0]
    omega
  · rw [workerEvents, List.countP_append,
      countP_flatten_const isAcquired (cycleEvents k id) k 2
        (fun i => (cycleEvents_countP k id i).2.1)]
    have h0 : ([Event.completed id k] : List Event).countP isAcquired = 0 := rfl
    rw [h0]
    omega
  · rw [workerEvents, List.countP_append,
      countP_flatten_const isReleased (cycleEvents k id) k 1
        (fun i => (cycleEvents_countP k id i).2.2)]
    have h0 : ([Event.completed id k] : List Event).countP isReleased = 0 := rfl
    rw [h0]
    omega

/-- Decimal digit character for `d ≤ 9`. -/
def digitChar (d : Nat) : Char := Char.ofNat (48 + d)

/-- Decimal digit string of `n`, most significant digit first. -/
def natDigits (n : Nat) : List Char :=
  if _h : n < 10 then [digitChar n]
  else natDigits (n / 10) ++ [digitChar (n % 10)]
termination_by n
decreasing_by exact Nat.div_lt_self (by omega) (by omega)

/-- `getTimestamp` (`DiningPhilosophers.cpp`): the elapsed time since
    construction is truncated to whole milliseconds
    (`duration_cast<milliseconds>`) and rendered as fixed-point seconds with
    exactly three decimal places (`std::fixed << std::setprecision(3)`
    applied to `elapsed.count() / 1000.0`); the double division and its
    rendering are modelled as exact decimal rendering of the millisecond
    count. -/
def getTimestamp (elapsedMs : Nat) : String :=
  ⟨natDigits (elapsedMs / 1000) ++ ['.'] ++
    [digitChar (elapsedMs % 1000 / 100),
     digitChar (elapsedMs % 1000 / 10 % 10),
     digitChar (elapsedMs % 1000 % 10)]⟩

/-- `log(message)` emits the single line
    `"[" << getTimestamp() << "s] " << message` under `coutMutex`. -/
def logLine (elapsedMs : Nat) (message : String) : String :=
  "[" ++ getTimestamp elapsedMs ++ "s] " ++ message

/-- Numeric value of a most-significant-first decimal digit string. -/
def digitsToNat (cs : List Char) : Nat :=
  cs.foldl (fun acc c => acc * 10 + (c.toNat - 48)) 0

theorem digitChar_isDigit (d : Nat) (h : d < 10) :
    (digitChar d).isDigit = true := by
  interval_cases d <;> decide

theorem digitChar_toNat (d : Nat) (h : d < 10) :
    (digitChar d).toNat = 48 + d := by
  interval_cases d <;> decide

theorem natDigits_ne_nil (n : Nat) : natDigits n ≠ [] := by
  rw [natDigits]
  split
  · simp
  · simp

theorem natDigits_all_digit (n : Nat) :
    ∀ c ∈ natDigits n, c.isDigit = true := by
  induction n using Nat.strong_induction_on with
  | _ n ih =>
      intro c hc
      rw [natDigits] at hc
      split at hc
      · simp only [List.mem_singleton] at hc
        rw [hc]
        exact digitChar_isDigit n (by omega)
      · rw [List.mem_append] at hc
        rcases hc with hc | hc
        · exact ih (n / 10) (Nat.div_lt_self (by omega) (by omega)) c hc
        · simp only [List.mem_singleton] at hc
          rw [hc]
          exact digitChar_isDigit (n % 10) (Nat.mod_lt n (by omega))

theorem digitsToNat_concat (cs : List Char) (c : Char) :
    digitsToNat (cs ++ [c]) = 10 * digitsToNat cs + (c.toNat - 48) := by
  simp only [digitsToNat, List.foldl_append, List.foldl_cons, List.foldl_nil]
  omega

theorem digitsToNat_natDigits (n : Nat) : digitsToNat (natDigits n) = n := by
  induction n using Nat.strong_induction_on with
  | _ n ih =>
      rw [natDigits]
      split
      · next h =>
          simp only [digitsToNat, List.foldl_cons, List.foldl_nil]
          rw [digitChar_toNat n h]
          omega
      · next h =>
          rw [digitsToNat_concat,
            ih (n / 10) (Nat.div_lt_self (by omega) (by omega)),
            digitChar_toNat (n % 10) (Nat.mod_lt n (by omega))]
          omega

/-- C6: every line emitted by `log(message)` has exactly the form
    `"[<elapsed>s] <message>"`, where `<elapsed>` is the elapsed time since
    the logger's construction, measured with millisecond precision and
    rendered in fixed-point notation with exactly 3 decimal places: the
    rendered integer part is `ms / 1000` and the rendered 3-digit fractional
    part is `ms % 1000`. -/
theorem log_line_format (elapsedMs : Nat) (message : String) :
    ∃ ip fp : List Char,
      (logLine elapsedMs message).data =
        '[' :: (ip ++ ['.'] ++ fp) ++ 's' :: ']' :: ' ' :: message.data ∧
      fp.length = 3 ∧
      (∀ c ∈ ip, c.isDigit = true) ∧
      (∀ c ∈ fp, c.isDigit = true) ∧
      ip ≠ [] ∧
      digitsToNat ip = elapsedMs / 1000 ∧
      digitsToNat fp = elapsedMs % 1000 := by
  refine ⟨natDigits (elapsedMs / 1000),
    [digitChar (elapsedMs % 1000 / 100),
     digitChar (elapsedMs % 1000 / 10 % 10),
     digitChar (elapsedMs % 1000 % 10)], ?_, rfl, natDigits_all_digit _,
    ?_, natDigits_ne_nil _, digitsToNat_natDigits _, ?_⟩
  · simp only [logLine, getTimestamp, String.data_append]
    simp
  · intro c hc
    simp only [List.mem_cons, List.mem_singleton, List.not_mem_nil, or_false] at hc
    rcases hc with hc | hc | hc <;>
      (rw [hc]; exact digitChar_isDigit _ (by omega))
  · simp only [digitsToNat, List.foldl_cons, List.foldl_nil]
    rw [digitChar_toNat _ (by omega), digitChar_toNat _ (by omega),
      digitChar_toNat _ (by omega)]
    omega

/-- Models `std::uniform_int_distribution<>(lo, hi)` applied to one draw of
    the generator: a value in `[lo, hi]`, each value produced by equally many
    draws over one period of the draw space. -/
def uniformInt (lo hi r : Nat) : Nat := lo + r % (hi + 1 - lo)

/-- `think`: sleep for `dis(gen)` seconds where
    `uniform_int_distribution<> dis(1, 3)`. -/
def thinkSeconds (r : Nat) : Nat := uniformInt 1 3 r

/-- `eat`: `sleep_for(std::chrono::seconds(2))`. -/
def EAT_SECONDS : Nat := 2

/-- C8: in every cycle the thinking duration is a uniformly distributed
    integer number of seconds in `[1, 3]` and is spent holding no forks,
    while the eating duration is the fixed 2 seconds spent holding both
    assigned forks, with no fork operation occurring before the releases
    that follow eating. -/
theorem think_eat_durations (N iters : Nat) (hN : 2 ≤ N) (c : Config)
    (hr : Reachable N iters c) (a r : Nat) (haN : a < N) :
    (1 ≤ thinkSeconds r ∧ thinkSeconds r ≤ 3) ∧
    (∀ v, 1 ≤ v → v ≤ 3 →
      ((Finset.range 3).filter (fun s => thinkSeconds s = v)).card = 1) ∧
    EAT_SECONDS = 2 ∧
    (c.phase a = .ready → ∀ f, c.holder f ≠ some a) ∧
    (c.phase a = .hasBoth →
      c.holder (leftFork a) = some a ∧ c.holder (rightFork N a) = some a) ∧
    (∀ c', Step N iters c c' → c.phase a = .hasBoth →
      c'.phase a ≠ .hasBoth → c'.phase a = .putLeft) := by
  have hinv := inv_reachable N iters hN hr
  refine ⟨?_, ?_, rfl, ?_, ?_, ?_⟩
  · simp only [thinkSeconds, uniformInt]
    have : r % 3 < 3 := Nat.mod_lt r (by omega)
    omega
  · intro v h1 h3
    interval_cases v <;> decide
  · intro hp f hf
    have hmem := (hinv.1 f a hf).2
    rw [hp] at hmem
    simp [heldForks] at hmem
  · intro hp
    constructor
    · exact hinv.2.1 a haN (leftFork a) (by rw [hp]; exact leftFork_mem_hasBoth N a)
    · exact hinv.2.1 a haN (rightFork N a) (by rw [hp]; exact rightFork_mem_hasBoth N a)
  · intro c' hs hb hne
    cases hs with
    | acquireFirst id' cc hid' hp hc hfree =>
        dsimp only at hne ⊢
        by_cases hae : a = id'
        · rw [hae] at hb
          rw [hb] at hp
          cases hp
        · rw [Function.update_apply, if_neg hae] at hne
          exact absurd hb hne
    | acquireSecond id' cc hid' hp hfree =>
        dsimp only at hne ⊢
        by_cases hae : a = id'
        · rw [hae] at hb
          rw [hb] at hp
          cases hp
        · rw [Function.update_apply, if_neg hae] at hne
          exact absurd hb hne
    | releaseLeft id' cc hid' hp =>
        dsimp only at hne ⊢
        by_cases hae : a = id'
        · rw [Function.update_apply, if_pos hae]
        · rw [Function.update_apply, if_neg hae] at hne
          exact absurd hb hne
    | releaseRight id' cc hid' hp =>
        dsimp only at hne ⊢
        by_cases hae : a = id'
        · rw [hae] at hb
          rw [hb] at hp
          cases hp
        · rw [Function.update_apply, if_neg hae] at hne
          exact absurd hb hne
    | finish id' cc hid' hp hc =>
        dsimp only at hne ⊢
        by_cases hae : a = id'
        · rw [hae] at hb
          rw [hb] at hp
          cases hp
        · rw [Function.update_apply, if_neg hae] at hne
          exact absurd hb hne

/-- Witness for C8 in the initial configuration of the `N = 5`, `iters = 3`
    run, at philosopher 0 and generator draw 5. -/
theorem think_eat_durations_witness :
    (2 ≤ 5) ∧ (0 : Nat) < 5 ∧
    ((1 ≤ thinkSeconds 5 ∧ thinkSeconds 5 ≤ 3) ∧
      (∀ v, 1 ≤ v → v ≤ 3 →
        ((Finset.range 3).filter (fun s => thinkSeconds s = v)).card = 1) ∧
      EAT_SECONDS = 2 ∧
      (initConfig.phase 0 = .ready → ∀ f, initConfig.holder f ≠ some 0) ∧
      (initConfig.phase 0 = .hasBoth →
        initConfig.holder (leftFork 0) = some 0 ∧
        initConfig.holder (rightFork 5 0) = some 0) ∧
      (∀ c', Step 5 3 initConfig c' → initConfig.phase 0 = .hasBoth →
        c'.phase 0 ≠ .hasBoth → c'.phase 0 = .putLeft)) :=
  ⟨by decide, by decide,
    think_eat_durations 5 3 (by decide) initConfig Relation.ReflTransGen.refl
      0 5 (by decide)⟩

end DiningPhilosophers

namespace ProcessSimulator

/-- Bounds of the 32-bit `int` read by formatted stream extraction. -/
def INT_MAX : Int := 2147483647

def INT_MIN : Int := -2147483648

/-- Whitespace characters skipped by formatted stream extraction. -/
def isSpace (c : Char) : Bool :=
  c = ' ' || c = '\t' || c = '\n' || c = '\r' || c = '\x0b' || c = '\x0c'

def skipWs : List Char → List Char
  | [] => []
  | c :: cs => if isSpace c then skipWs cs else c :: cs

/-- Accumulate decimal digits, returning the value and the unread rest. -/
def readDigits (acc : Nat) : List Char → Nat × List Char
  | [] => (acc, [])
  | c :: cs =>
    if c.isDigit then readDigits (acc * 10 + (c.toNat - 48)) cs
    else (acc, c :: cs)

/-- Sign handling of C++ `operator>>` into `int`: an optional leading `-`
    or `+` before the digits. -/
def extractSign : List Char → Bool × List Char
  | [] => (false, [])
  | c :: rest =>
    if c = '-' then (true, rest)
    else if c = '+' then (false, rest)
    else (false, c :: rest)

/-- Core of C++ `operator>>` into `int`, after whitespace skipping: an
    optional sign followed by at least one decimal digit; failure when no
    digit follows or when the value overflows `int` (failbit). -/
def extractIntCore (cs : List Char) : Option (Int × List Char) :=
  match (extractSign cs).2 with
  | [] => none
  | d :: ds =>
    if d.isDigit then
      let v : Int :=
        if (extractSign cs).1 then -((readDigits 0 (d :: ds)).1 : Int)
        else ((readDigits 0 (d :: ds)).1 : Int)
      if INT_MIN ≤ v ∧ v ≤ INT_MAX then some (v, (readDigits 0 (d :: ds)).2)
      else none
    else none

/-- `iss >> n` for `int n`: skip whitespace, then read a signed integer. -/
def extractInt (cs : List Char) : Option (Int × List Char) :=
  extractIntCore (skipWs cs)

/-- Outcome of the loop body of `loadProcesses` on one line. -/
inductive LineResult where
  | emptyLine
  | malformed
  | badPid (pid : Int)
  | badBurst (pid burst : Int)
  | ok (pid burst : Int)
  deriving DecidableEq, Repr

/-- One iteration of the `loadProcesses` read loop: empty lines are skipped,
    otherwise `iss >> pid >> burstTime` must succeed and both values must be
    positive. -/
def processLine (line : List Char) : LineResult :=
  if line = [] then .emptyLine
  else
    match extractInt line with
    | none => .malformed
    | some (pid, rest) =>
      match extractInt rest with
      | none => .malformed
      | some (burst, _) =>
        if pid ≤ 0 then .badPid pid
        else if burst ≤ 0 then .badBurst pid burst
        else .ok pid burst

/-- A record of the `processes` vector. -/
structure Process where
  pid : Int
  burstTime : Int
  deriving DecidableEq, Repr

inductive ErrKind where
  | format
  | badPid (pid : Int)
  | badBurst (burst : Int)
  deriving DecidableEq, Repr

/-- A load failure; the `cerr` diagnostic names `line` (1-based: the code
    increments `lineNumber` before validating). -/
structure LoadError where
  line : Nat
  kind : ErrKind
  deriving DecidableEq, Repr

/-- The `while (getline)` loop of `loadProcesses`, carrying `lineNumber` and
    the accumulated `processes` vector; it aborts with the diagnostic of the
    first invalid line. -/
def loadLoop (lineNumber : Nat) (acc : List Process) :
    List (List Char) → Except LoadError (List Process)
  | [] => .ok acc
  | l :: ls =>
    match processLine l with
    | .emptyLine => loadLoop (lineNumber + 1) acc ls
    | .malformed => .error ⟨lineNumber + 1, .format⟩
    | .badPid p => .error ⟨lineNumber + 1, .badPid p⟩
    | .badBurst _ b => .error ⟨lineNumber + 1, .badBurst b⟩
    | .ok p b => loadLoop (lineNumber + 1) (acc ++ [⟨p, b⟩]) ls

/-- `loadProcesses` applied to the list of lines of a readable file. -/
def loadProcesses (lines : List (List Char)) :
    Except LoadError (List Process) :=
  loadLoop 0 [] lines

/-- The final `processes.empty()` check: a successful load with no records
    prints only the "Warning: No valid processes" diagnostic and still
    returns `true`. -/
def loadWarnsNoProcesses (lines : List (List Char)) : Bool :=
  match loadProcesses lines with
  | .ok ps => ps.isEmpty
  | .error _ => false

/-- Worker threads created in the run of `main`: `executeProcesses` spawns
    one per loaded process, and none exist when the load fails because
    `main` returns before calling `executeProcesses`. -/
def spawnedThreads (lines : List (List Char)) : Nat :=
  match loadProcesses lines with
  | .ok ps => ps.length
  | .error _ => 0

/-- Exit status of `main` as a function of the `processes.txt` contents:
    1 when `loadProcesses` fails, otherwise 0 after both simulations run to
    completion. -/
def mainExitCode (lines : List (List Char)) : Nat :=
  match loadProcesses lines with
  | .ok _ => 0
  | .error _ => 1

theorem loadLoop_all_empty (ls : List (List Char)) (h : ∀ l ∈ ls, l = []) :
    ∀ n, loadLoop n [] ls = .ok [] := by
  induction ls with
  | nil => intro n; rfl
  | cons l ls ih =>
      intro n
      have hl0 : l = [] := h l (List.mem_cons_self l ls)
      subst hl0
      exact ih (fun x hx => h x (List.mem_cons_of_mem _ hx)) (n + 1)

/-- C9: for a readable input containing no process records at all (an empty
    file or only empty lines), `loadProcesses` returns success with an empty
    list, printing only a warning; the run proceeds, `executeProcesses`
    spawns zero worker threads, and the process exits with status 0. -/
theorem empty_input_ok (lines : List (List Char)) (h : ∀ l ∈ lines, l = []) :
    loadProcesses lines = .ok [] ∧
    loadWarnsNoProcesses lines = true ∧
    spawnedThreads lines = 0 ∧
    mainExitCode lines = 0 := by
  have hres : loadProcesses lines = .ok [] := loadLoop_all_empty lines h 0
  refine ⟨hres, ?_, ?_, ?_⟩ <;>
    simp [loadWarnsNoProcesses, spawnedThreads, mainExitCode, hres]

/-- Witness for C9 on a two-line file with both lines empty. -/
theorem empty_input_ok_witness :
    (∀ l ∈ ([[], []] : List (List Char)), l = []) ∧
    (loadProcesses [[], []] = .ok [] ∧
      loadWarnsNoProcesses [[], []] = true ∧
      spawnedThreads [[], []] = 0 ∧
      mainExitCode [[], []] = 0) :=
  ⟨by decide, empty_input_ok [[], []] (by decide)⟩

/-- A non-empty line the loader must reject: the two stream extractions do
    not both succeed, or the extracted identifier or duration is
    non-positive. -/
def badLineB (l : List Char) : Bool :=
  !l.isEmpty &&
    (match extractInt l with
     | none => true
     | some (p, rest) =>
       match extractInt rest with
       | none => true
       | some (b, _) => decide (p ≤ 0) || decide (b ≤ 0))

theorem badLine_processLine (l : List Char) :
    (badLineB l = true → processLine l ≠ .emptyLine ∧
      ∀ p b, processLine l ≠ .ok p b) ∧
    (badLineB l = false → processLine l = .emptyLine ∨
      ∃ p b, processLine l = .ok p b) := by
  unfold badLineB processLine
  by_cases hemp : l = []
  · subst hemp
    simp
  · rw [if_neg hemp]
    have hne : l.isEmpty = false := by
      cases l with
      | nil => exact absurd rfl hemp
      | cons a as => rfl
    rw [hne]
    cases hx : extractInt l with
    | none => simp
    | some pr =>
        obtain ⟨p, rest⟩ := pr
        cases hy : extractInt rest with
        | none => simp [hy]
        | some pb =>
            obtain ⟨b, rest2⟩ := pb
            by_cases hp : p ≤ 0
            · simp [hy, hp]
            · by_cases hb : b ≤ 0
              · simp [hy, hp, hb]
              · simp [hy, hp, hb]

theorem loadLoop_error_of_bad (ls : List (List Char)) :
    ∀ n acc, (∃ i, ∃ hi : i < ls.length, badLineB (ls.get ⟨i, hi⟩) = true) →
    ∃ e i, ∃ hi : i < ls.length,
      loadLoop n acc ls = .error e ∧ e.line = n + i + 1 ∧
      badLineB (ls.get ⟨i, hi⟩) = true := by
  induction ls with
  | nil =>
      rintro n acc ⟨i, hi, hbad⟩
      exact absurd hi (by simp)
  | cons l ls ih =>
      rintro n acc ⟨i, hi, hbad⟩
      by_cases hl : badLineB l = true
      · obtain ⟨hne, hnok⟩ := (badLine_processLine l).1 hl
        cases hpl : processLine l with
        | emptyLine => exact absurd hpl hne
        | ok p b => exact absurd hpl (hnok p b)
        | malformed =>
            refine ⟨⟨n + 1, .format⟩, 0, by simp, ?_, rfl, hl⟩
            simp only [loadLoop, hpl]
        | badPid p =>
            refine ⟨⟨n + 1, .badPid p⟩, 0, by simp, ?_, rfl, hl⟩
            simp only [loadLoop, hpl]
        | badBurst p b =>
            refine ⟨⟨n + 1, .badBurst b⟩, 0, by simp, ?_, rfl, hl⟩
            simp only [loadLoop, hpl]
      · have hlf : badLineB l = false := by simpa using hl
        have hi0 : i ≠ 0 := by
          intro h0
          subst h0
          exact hl hbad
        obtain ⟨j, rfl⟩ : ∃ j, i = j + 1 := ⟨i - 1, by omega⟩
        have hj : j < ls.length := by simpa using hi
        have hbad' : badLineB (ls.get ⟨j, hj⟩) = true := hbad
        rcases (badLine_processLine l).2 hlf with hempty | ⟨p, b, hok⟩
        · obtain ⟨e, j', hj', heq, hline, hbj⟩ := ih (n + 1) acc ⟨j, hj, hbad'⟩
          refine ⟨e, j' + 1, by simpa using hj', ?_, by omega, hbj⟩
          simp only [loadLoop, hempty]
          exact heq
        · obtain ⟨e, j', hj', heq, hline, hbj⟩ :=
            ih (n + 1) (acc ++ [⟨p, b⟩]) ⟨j, hj, hbad'⟩
          refine ⟨e, j' + 1, by simpa using hj', ?_, by omega, hbj⟩
          simp only [loadLoop, hok]
          exact heq

/-- C7: if any non-empty line of the input contains a non-positive
    identifier, a non-positive duration, or tokens that do not parse as two
    integers, `loadProcesses` fails with a diagnostic naming the (1-based)
    number of an offending line, `main` exits with status 1, and no worker
    thread is ever created; when the load succeeds, the completed run exits
    with status 0. -/
theorem load_failure (lines : List (List Char)) :
    ((∃ i, ∃ hi : i < lines.length, badLineB (lines.get ⟨i, hi⟩) = true) →
      (∃ e i, ∃ hi : i < lines.length,
        loadProcesses lines = .error e ∧ e.line = i + 1 ∧
        badLineB (lines.get ⟨i, hi⟩) = true) ∧
      mainExitCode lines = 1 ∧ spawnedThreads lines = 0) ∧
    (∀ ps, loadProcesses lines = .ok ps →
      mainExitCode lines = 0 ∧ spawnedThreads lines = ps.length) := by
  constructor
  · intro h
    obtain ⟨e, i, hi, heq, hline, hbad⟩ := loadLoop_error_of_bad lines 0 [] h
    have heq' : loadProcesses lines = .error e := heq
    refine ⟨⟨e, i, hi, heq', by omega, hbad⟩, ?_, ?_⟩ <;>
      simp [mainExitCode, spawnedThreads, heq']
  · intro ps hok
    constructor <;> simp [mainExitCode, spawnedThreads, hok]

/-- Witness for C7: the single-line file `"0 5"` (non-positive identifier)
    fails the load before any thread starts. -/
theorem load_failure_witness :
    (∃ e i, ∃ hi : i < ([['0', ' ', '5']] : List (List Char)).length,
      loadProcesses [['0', ' ', '5']] = .error e ∧ e.line = i + 1 ∧
      badLineB (([['0', ' ', '5']] : List (List Char)).get ⟨i, hi⟩) = true) ∧
    mainExitCode [['0', ' ', '5']] = 1 ∧
    spawnedThreads [['0', ' ', '5']] = 0 :=
  (load_failure [['0', ' ', '5']]).1 ⟨0, by decide, by decide⟩

/-- A whole whitespace-separated token that parses as an integer: stream
    extraction consumes it entirely. -/
def intToken (t : List Char) : Option Int :=
  match extractInt t with
  | some (v, []) => some v
  | _ => none

theorem intToken_spec (t : List Char) (v : Int) (h : intToken t = some v) :
    extractInt t = some (v, []) := by
  unfold intToken at h
  cases hx : extractInt t with
  | none => rw [hx] at h; cases h
  | some pr =>
      obtain ⟨w, rest⟩ := pr
      rw [hx] at h
      cases rest with
      | nil =>
          injection h with h
          rw [h]
      | cons a as => cases h

theorem isSpace_not_digit (c : Char) (h : isSpace c = true) :
    c.isDigit = false := by
  simp only [isSpace, Bool.or_eq_true, decide_eq_true_eq] at h
  rcases h with (((((rfl | rfl) | rfl) | rfl) | rfl) | rfl) <;> decide

theorem skipWs_append_ws (w r : List Char)
    (hw : ∀ c ∈ w, isSpace c = true) : skipWs (w ++ r) = skipWs r := by
  induction w with
  | nil => rfl
  | cons c cs ih =>
      have hc : isSpace c = true := hw c (List.mem_cons_self c cs)
      simp only [List.cons_append, skipWs, hc, if_true]
      exact ih (fun x hx => hw x (List.mem_cons_of_mem _ hx))

theorem skipWs_cons_of (t R : List Char) (c : Char) (cs : List Char)
    (h : skipWs t = c :: cs) : skipWs (t ++ R) = c :: (cs ++ R) := by
  induction t with
  | nil => cases h
  | cons a t ih =>
      by_cases ha : isSpace a = true
      · simp only [skipWs, ha, if_true] at h
        simp only [List.cons_append, skipWs, ha, if_true]
        exact ih h
      · have ha' : isSpace a = false := by simpa using ha
        simp only [skipWs, ha', Bool.false_eq_true, if_false] at h
        injection h with h1 h2
        simp only [List.cons_append, skipWs, ha', Bool.false_eq_true, if_false]
        rw [h1, h2]
        rfl

theorem readDigits_append (ds R : List Char)
    (hR : R = [] ∨ ∃ c cs, R = c :: cs ∧ c.isDigit = false) :
    ∀ a, (readDigits a ds).2 = [] →
      readDigits a (ds ++ R) = ((readDigits a ds).1, R) := by
  induction ds with
  | nil =>
      intro a _
      rcases hR with rfl | ⟨c, cs, rfl, hc⟩
      · rfl
      · simp only [List.nil_append, readDigits, hc, Bool.false_eq_true,
          if_false]
  | cons d ds ih =>
      intro a h
      by_cases hd : d.isDigit = true
      · simp only [readDigits, hd, if_true] at h
        simp only [List.cons_append, readDigits, hd, if_true]
        exact ih _ h
      · have hd' : d.isDigit = false := by simpa using hd
        simp only [readDigits, hd', Bool.false_eq_true, if_false] at h
        cases h

theorem extractSign_append (cs R : List Char) (h : cs ≠ []) :
    extractSign (cs ++ R) = ((extractSign cs).1, (extractSign cs).2 ++ R) := by
  cases cs with
  | nil => exact absurd rfl h
  | cons c rest =>
      simp only [List.cons_append, extractSign]
      by_cases hm : c = '-'
      · simp [hm]
      · by_cases hp : c = '+'
        · simp [hm, hp]
        · simp [hm, hp]

theorem extractIntCore_append (t R : List Char) (v : Int)
    (h : extractIntCore t = some (v, []))
    (hR : R = [] ∨ ∃ c cs, R = c :: cs ∧ c.isDigit = false) :
    extractIntCore (t ++ R) = some (v, R) := by
  have ht : t ≠ [] := by
    intro h0
    rw [h0] at h
    cases h
  have hsplit := extractSign_append t R ht
  cases hsign : extractSign t with
  | mk neg ds =>
      rw [hsign] at hsplit
      simp only [extractIntCore, hsign] at h
      simp only [extractIntCore, hsplit]
      cases ds with
      | nil => simp at h
      | cons d ds2 =>
          simp only [List.cons_append]
          by_cases hd : d.isDigit = true
          · simp only [hd, if_true] at h ⊢
            cases hrd : readDigits 0 (d :: ds2) with
            | mk n rem =>
                simp only [hrd] at h
                by_cases hrange :
                    INT_MIN ≤ (if neg = true then -(n : Int) else (n : Int)) ∧
                      (if neg = true then -(n : Int) else (n : Int)) ≤ INT_MAX
                · rw [if_pos hrange] at h
                  injection h with h1
                  have hrem : rem = [] := congrArg Prod.snd h1
                  have hv : (if neg = true then -(n : Int) else (n : Int)) = v :=
                    congrArg Prod.fst h1
                  have hra : readDigits 0 ((d :: ds2) ++ R) =
                      ((readDigits 0 (d :: ds2)).1, R) :=
                    readDigits_append (d :: ds2) R hR 0 (by rw [hrd]; exact hrem)
                  rw [hrd] at hra
                  simp only [List.cons_append] at hra
                  simp only [hra]
                  rw [if_pos hrange, hv]
                · rw [if_neg hrange] at h
                  cases h
          · simp only [hd, Bool.false_eq_true, if_false] at h
            cases h

theorem extractInt_append (t R : List Char) (v : Int)
    (h : extractInt t = some (v, []))
    (hR : R = [] ∨ ∃ c cs, R = c :: cs ∧ c.isDigit = false) :
    extractInt (t ++ R) = some (v, R) := by
  rw [extractInt] at h
  cases hsw : skipWs t with
  | nil => rw [hsw] at h; cases h
  | cons c cs =>
      rw [hsw] at h
      rw [extractInt, skipWs_cons_of t R c cs hsw]
      exact extractIntCore_append (c :: cs) R v h hR

theorem extractInt_skip_leading_ws (w x : List Char)
    (hw : ∀ c ∈ w, isSpace c = true) : extractInt (w ++ x) = extractInt x := by
  rw [extractInt, extractInt, skipWs_append_ws w x hw]

/-- C10: a line whose first two whitespace-separated tokens parse as
    positive integers is accepted and stores exactly those two values as
    `(pid, burstTime)`; any trailing text after the second token is ignored
    rather than rejected. -/
theorem trailing_text_ignored (w1 t1 w2 t2 rest : List Char) (p b : Int)
    (hw1 : ∀ c ∈ w1, isSpace c = true)
    (hw2 : ∀ c ∈ w2, isSpace c = true) (hw2ne : w2 ≠ [])
    (ht1 : intToken t1 = some p) (hp : 0 < p)
    (ht2 : intToken t2 = some b) (hb : 0 < b)
    (hrest : rest = [] ∨ ∃ c cs, rest = c :: cs ∧ isSpace c = true) :
    processLine (w1 ++ t1 ++ w2 ++ t2 ++ rest) = .ok p b := by
  obtain ⟨cw, csw, rfl⟩ : ∃ cw csw, w2 = cw :: csw := by
    cases w2 with
    | nil => exact absurd rfl hw2ne
    | cons cw csw => exact ⟨cw, csw, rfl⟩
  have hcw : isSpace cw = true := hw2 cw (List.mem_cons_self cw csw)
  have hRd : ∀ z : List Char, ((cw :: csw) ++ z : List Char) = [] ∨
      ∃ c cs, (cw :: csw) ++ z = c :: cs ∧ c.isDigit = false := fun z =>
    Or.inr ⟨cw, csw ++ z, rfl, isSpace_not_digit cw hcw⟩
  have hrestd : rest = [] ∨ ∃ c cs, rest = c :: cs ∧ c.isDigit = false := by
    rcases hrest with rfl | ⟨c, cs, rfl, hc⟩
    · exact Or.inl rfl
    · exact Or.inr ⟨c, cs, rfl, isSpace_not_digit c hc⟩
  have hx1 : extractInt (w1 ++ (t1 ++ ((cw :: csw) ++ (t2 ++ rest)))) =
      some (p, (cw :: csw) ++ (t2 ++ rest)) := by
    rw [extractInt_skip_leading_ws w1 _ hw1]
    exact extractInt_append t1 _ p (intToken_spec t1 p ht1) (hRd (t2 ++ rest))
  have hx2 : extractInt ((cw :: csw) ++ (t2 ++ rest)) =
      some (b, rest) := by
    rw [extractInt_skip_leading_ws (cw :: csw) _ hw2]
    exact extractInt_append t2 rest b (intToken_spec t2 b ht2) hrestd
  have hne : w1 ++ t1 ++ (cw :: csw) ++ t2 ++ rest ≠ [] := by
    simp
  rw [processLine, if_neg hne]
  have hassoc : w1 ++ t1 ++ (cw :: csw) ++ t2 ++ rest =
      w1 ++ (t1 ++ ((cw :: csw) ++ (t2 ++ rest))) := by
    simp [List.append_assoc]
  rw [hassoc]
  simp only [hx1, hx2]
  rw [if_neg (by omega), if_neg (by omega)]

/-- Witness for C10 on the line `"3 7 x"`: tokens `3` and `7`, trailing
    `" x"` ignored. -/
theorem trailing_text_ignored_witness :
    intToken ['3'] = some 3 ∧ (0 : Int) < 3 ∧
    processLine ([] ++ ['3'] ++ [' '] ++ ['7'] ++ [' ', 'x']) = .ok 3 7 :=
  ⟨by decide, by decide,
    trailing_text_ignored [] ['3'] [' '] ['7'] [' ', 'x'] 3 7 (by decide)
      (by decide) (by decide) (by decide) (by decide) (by decide) (by decide)
      (Or.inr ⟨' ', ['x'], rfl, by decide⟩)⟩

end ProcessSimulator
